import Mathlib

/-!
Verification of the dbt-reviewer core: a shallow embedding of
`core/diff_parser.py`, `core/deterministic.py` and `core/reporter.py`.
Python strings are modelled as `List Char`; Python's `re` patterns are
embedded as equivalent deterministic matchers (each pattern here admits no
backtracking ambiguity, so maximal-munch scanning coincides with Python's
leftmost-greedy semantics).
-/

namespace DbtReviewer

/-- Python strings, modelled as lists of characters. -/
abbrev PyStr := List Char

/-- The character `{` (written via its code point). -/
def lbrace : Char := Char.ofNat 123

/-- The character `}` (written via its code point). -/
def rbrace : Char := Char.ofNat 125

/-- The character `'` (written via its code point). -/
def squote : Char := Char.ofNat 39

/-- The character `\` (written via its code point). -/
def bslash : Char := Char.ofNat 92

/-- ASCII whitespace recognised by Python's `str.strip` and the regex class. -/
def isPySpace (c : Char) : Bool :=
  c = ' ' || c = Char.ofNat 9 || c = Char.ofNat 10 || c = Char.ofNat 11 ||
  c = Char.ofNat 12 || c = Char.ofNat 13

/-- Word characters of the regex class used by the word-boundary assertion. -/
def isWordChar (c : Char) : Bool :=
  c.isAlphanum || c = '_'

/-- Python `str.strip()`: drop leading and trailing whitespace. -/
def pyStrip (s : PyStr) : PyStr :=
  ((s.dropWhile isPySpace).reverse.dropWhile isPySpace).reverse

/-- Python `str.splitlines()` restricted to the line boundaries that occur in
this code base (LF, CR, CRLF): no trailing empty line is produced. -/
def splitlines : List Char → List PyStr
  | [] => []
  | [c] =>
    if c = Char.ofNat 10 then [[]]
    else if c = Char.ofNat 13 then [[]]
    else [[c]]
  | c :: c2 :: cs2 =>
    if c = Char.ofNat 10 then [] :: splitlines (c2 :: cs2)
    else if c = Char.ofNat 13 then
      if c2 = Char.ofNat 10 then [] :: splitlines cs2
      else [] :: splitlines (c2 :: cs2)
    else
      match splitlines (c2 :: cs2) with
      | [] => [[c]]
      | l :: ls => (c :: l) :: ls

/-- Python `"\n".join(lines)`. -/
def joinNL : List PyStr → PyStr
  | [] => []
  | [l] => l
  | l :: ls => l ++ Char.ofNat 10 :: joinNL ls

/-- Value of a digit string, as computed by Python `int()`. -/
def digitsToNat (ds : List Char) : Nat :=
  ds.foldl (fun n c => 10 * n + (c.toNat - 48)) 0

/-- `FileDiff` from `core/diff_parser.py`. -/
structure FileDiff where
  filename : PyStr
  added_lines : List PyStr := []
  added_line_numbers : List Nat := []
  removed_lines : List PyStr := []
  new_content : PyStr := []
deriving DecidableEq, Repr

/-- The mutable loop state of `parse_diff`. -/
structure ParseState where
  files : List FileDiff
  current_file : Option FileDiff
  new_content_lines : List PyStr
  new_line_no : Nat
deriving DecidableEq, Repr

/-- `_HUNK_RE.match`: parse a hunk header
`@@ -<old>[,<n>] +<new>[,<m>] @@` and return the captured new-file start.
Greedy digit runs followed by non-digit literals make the regex
deterministic, so maximal munch is faithful. -/
def parseHunkHeader (line : PyStr) : Option Nat :=
  if "@@ -".data.isPrefixOf line then
    let r1 := line.drop 4
    let d1 := r1.takeWhile Char.isDigit
    if d1 = [] then none
    else
      let r2 := r1.dropWhile Char.isDigit
      let r3 :=
        match r2 with
        | c :: rest =>
          if c = ',' ∧ rest.takeWhile Char.isDigit ≠ [] then
            rest.dropWhile Char.isDigit
          else r2
        | [] => r2
      match r3 with
      | ' ' :: '+' :: r4 =>
        let d2 := r4.takeWhile Char.isDigit
        if d2 = [] then none
        else
          let r5 := r4.dropWhile Char.isDigit
          let r6 :=
            match r5 with
            | c :: rest =>
              if c = ',' ∧ rest.takeWhile Char.isDigit ≠ [] then
                rest.dropWhile Char.isDigit
              else r5
            | [] => r5
          match r6 with
          | ' ' :: '@' :: '@' :: _ => some (digitsToNat d2)
          | _ => none
      | _ => none
  else none

/-- Flush the current accumulator: set `new_content` from the buffered lines
and append the `FileDiff` to the result list. -/
def flushFile (st : ParseState) : List FileDiff :=
  match st.current_file with
  | some f => st.files ++ [{ f with new_content := joinNL st.new_content_lines }]
  | none => st.files

/-- One iteration of the `for line in diff_text.splitlines()` loop of
`parse_diff`, mirroring its `if`/`elif` chain. -/
def processLine (st : ParseState) (line : PyStr) : ParseState :=
  if "diff --git ".data.isPrefixOf line then
    { files := flushFile st, current_file := none, new_content_lines := [], new_line_no := 0 }
  else if "+++ b/".data.isPrefixOf line then
    let filename := line.drop 6
    if filename ≠ "/dev/null".data then
      { st with current_file := some { filename := filename } }
    else st
  else if "--- ".data.isPrefixOf line ∨ "index ".data.isPrefixOf line then st
  else if "@@".data.isPrefixOf line then
    match parseHunkHeader line with
    | some n => { st with new_line_no := n }
    | none => st
  else
    match st.current_file with
    | none => st
    | some f =>
      match line with
      | c :: rest =>
        if c = '+' then
          { st with
            current_file := some { f with
              added_lines := f.added_lines ++ [rest],
              added_line_numbers := f.added_line_numbers ++ [st.new_line_no] },
            new_content_lines := st.new_content_lines ++ [rest],
            new_line_no := st.new_line_no + 1 }
        else if c = '-' then
          { st with current_file := some { f with removed_lines := f.removed_lines ++ [rest] } }
        else if c = bslash then st
        else
          let context := if c = ' ' then rest else c :: rest
          { st with
            new_content_lines := st.new_content_lines ++ [context],
            new_line_no := st.new_line_no + 1 }
      | [] =>
        { st with
          new_content_lines := st.new_content_lines ++ [([] : PyStr)],
          new_line_no := st.new_line_no + 1 }

/-- Initial state of the `parse_diff` loop. -/
def initState : ParseState := ⟨[], none, [], 0⟩

/-- `parse_diff` applied to an already-split list of lines. -/
def parse_lines (lines : List PyStr) : List FileDiff :=
  let st := lines.foldl processLine initState
  (flushFile st).filter (fun f => ".sql".data.isSuffixOf f.filename)

/-- `parse_diff` from `core/diff_parser.py`. -/
def parse_diff (s : PyStr) : List FileDiff :=
  parse_lines (splitlines s)

/-- `Finding` from `core/deterministic.py`. -/
structure Finding where
  rule : PyStr
  severity : PyStr
  file : PyStr
  message : PyStr
  line : Option PyStr := none
deriving DecidableEq, Repr

/-- Case-insensitive literal match: `pat` is a lowercase pattern; on success
return the consumed input characters (original case) and the rest. -/
def matchCI : List Char → List Char → Option (List Char × List Char)
  | [], cs => some ([], cs)
  | _ :: _, [] => none
  | p :: ps, c :: cs =>
    if c.toLower = p then (matchCI ps cs).map (fun m => (c :: m.1, m.2)) else none

/-- Word-boundary test for a match that starts with a word character:
satisfied at the string start or after a non-word character. -/
def boundaryB : Option Char → Bool
  | none => true
  | some c => !isWordChar c

/-- Match `[a-zA-Z_][a-zA-Z0-9_]*` at the head, returning the identifier and
the rest.  The greedy run is maximal; the regexes only ever follow it with a
non-word character, so this is faithful. -/
def identTake : List Char → Option (List Char × List Char)
  | [] => none
  | c :: rest =>
    if c.isAlpha || c = '_' then
      some (c :: rest.takeWhile isWordChar, rest.dropWhile isWordChar)
    else none

/-- Match `select\s+\*` (ignore-case) at the head of `cs`. -/
def selStarHere (cs : List Char) : Bool :=
  match matchCI "select".data cs with
  | none => false
  | some m =>
    let r := m.2
    !(r.takeWhile isPySpace).isEmpty && (r.dropWhile isPySpace).head? = some '*'

/-- `_SELECT_STAR_RE.search`: try `\bselect\s+\*` at every position. -/
def selectStarSearchAux : Option Char → List Char → Bool
  | prev, [] => boundaryB prev && selStarHere []
  | prev, c :: rest =>
    (boundaryB prev && selStarHere (c :: rest)) || selectStarSearchAux (some c) rest

/-- `_SELECT_STAR_RE.search(s) is not None`. -/
def selectStarSearch (s : PyStr) : Bool :=
  selectStarSearchAux none s

/-- Match `(?:from|join)\s+([a-zA-Z_]\w*)\.([a-zA-Z_]\w*)` (ignore-case) at
the head, returning the two captured identifiers. -/
def fromJoinHere (cs : List Char) : Option (PyStr × PyStr) :=
  match (matchCI "from".data cs).orElse (fun _ => matchCI "join".data cs) with
  | none => none
  | some m =>
    let r1 := m.2
    if (r1.takeWhile isPySpace).isEmpty then none
    else
      match identTake (r1.dropWhile isPySpace) with
      | none => none
      | some (id1, r2) =>
        match r2 with
        | '.' :: r3 =>
          match identTake r3 with
          | none => none
          | some (id2, _) => some (id1, id2)
        | _ => none

/-- `_FROM_JOIN_SCHEMA_RE.search`: leftmost match of
`\b(?:from|join)\s+(\w-ident)\.(\w-ident)`, returning the groups. -/
def fromJoinSearchAux : Option Char → List Char → Option (PyStr × PyStr)
  | _, [] => none
  | prev, c :: rest =>
    match (if boundaryB prev then fromJoinHere (c :: rest) else none) with
    | some g => some g
    | none => fromJoinSearchAux (some c) rest

/-- Leftmost `_FROM_JOIN_SCHEMA_RE` match of a string. -/
def fromJoinSearch (s : PyStr) : Option (PyStr × PyStr) :=
  fromJoinSearchAux none s

/-- The model-name prefixes of `_DBT_MODEL_BARE_RE`, lowercase. -/
def dbtPrefixes : List (List Char) :=
  ["stg".data, "fct".data, "dim".data, "int".data, "mart".data, "base".data]

/-- Try the prefix alternation `(?:stg|fct|dim|int|mart|base)` (ignore-case)
at the head, returning the consumed original characters and the rest. -/
def dbtPrefixHere (cs : List Char) : Option (List Char × List Char) :=
  dbtPrefixes.foldr (fun p acc => ((matchCI p cs).orElse (fun _ => acc))) none

/-- Match `(?:from|join)\s+((?:stg|fct|dim|int|mart|base)_\w+)\b` at the
head, returning the captured group, the last matched character and the rest
after the match.  The trailing `\b` always holds after a maximal `\w+` run. -/
def dbtHere (cs : List Char) : Option (PyStr × Char × List Char) :=
  match (matchCI "from".data cs).orElse (fun _ => matchCI "join".data cs) with
  | none => none
  | some m =>
    let r1 := m.2
    if (r1.takeWhile isPySpace).isEmpty then none
    else
      match dbtPrefixHere (r1.dropWhile isPySpace) with
      | none => none
      | some (pfx, r2) =>
        match r2 with
        | '_' :: r3 =>
          let w := r3.takeWhile isWordChar
          match w.getLast? with
          | none => none
          | some lastc => some (pfx ++ '_' :: w, lastc, r3.dropWhile isWordChar)
        | _ => none

/-- `_DBT_MODEL_BARE_RE.finditer`: all non-overlapping matches, scanning left
to right; after a match, scanning resumes after its last character.  `fuel`
bounds the recursion and never runs out when it starts at the input length. -/
def dbtFindAux : Nat → Option Char → List Char → List PyStr
  | 0, _, _ => []
  | _ + 1, _, [] => []
  | fuel + 1, prev, c :: rest =>
    match (if boundaryB prev then dbtHere (c :: rest) else none) with
    | some (g, lastc, after) => g :: dbtFindAux fuel (some lastc) after
    | none => dbtFindAux fuel (some c) rest

/-- The capture groups of all `_DBT_MODEL_BARE_RE.finditer` matches. -/
def dbtFind (s : PyStr) : List PyStr :=
  dbtFindAux s.length none s

/-- Scan the body of a `_JINJA_RE` candidate: skip non-`\x7d` characters; at
the first `\x7d` require a second one and return the rest after it. -/
def jinjaClose : List Char → Option (List Char)
  | [] => none
  | c :: cs =>
    if c = rbrace then
      match cs with
      | c2 :: r => if c2 = rbrace then some r else none
      | [] => none
    else jinjaClose cs

/-- The match attempt of `_JINJA_RE` (`\x7b\x7b[^\x7d]+\x7d\x7d`) after an
initial `\x7b\x7b`: a non-empty run of non-`\x7d` characters followed by
`\x7d\x7d`; returns the rest after the match. -/
def jinjaMatch : List Char → Option (List Char)
  | [] => none
  | c :: cs => if c = rbrace then none else jinjaClose cs

/-- The scanning loop of `_JINJA_RE.sub(repl, s)`, with an explicit fuel
that only decreases; started at the input length it never runs out, because
each step consumes at least one input character. -/
def jinjaSubF (repl : List Char) : Nat → List Char → List Char
  | _, [] => []
  | 0, l => l
  | _ + 1, [c] => [c]
  | fuel + 1, c :: c2 :: cs2 =>
    if c = lbrace ∧ c2 = lbrace then
      match jinjaMatch cs2 with
      | some r => repl ++ jinjaSubF repl fuel r
      | none => c :: jinjaSubF repl fuel (c2 :: cs2)
    else c :: jinjaSubF repl fuel (c2 :: cs2)

/-- `_JINJA_RE.sub(repl, s)`: replace each non-overlapping leftmost match of
the double-brace pattern by `repl`, scanning left to right. -/
def jinjaSub (repl : List Char) (s : List Char) : List Char :=
  jinjaSubF repl s.length s

/-- The replacement token used by `check_hardcoded_schema`. -/
def jinjaToken : PyStr := "__JINJA__".data

/-- The message of a `SELECT_STAR` finding. -/
def selectStarMsg : PyStr :=
  "SELECT * detected — enumerate columns explicitly to avoid schema drift".data

/-- The message of a `HARDCODED_SCHEMA` finding: the second half of the
source's implicit string concatenation is a plain (non-f) string, so its
doubled braces stay verbatim. -/
def hardcodedMsg (ref : PyStr) : PyStr :=
  "Hardcoded schema reference \"".data ++ ref ++ "\" — use ".data ++
  [lbrace, lbrace] ++ " ref() ".data ++ [rbrace, rbrace] ++
  " for dbt models or ".data ++
  [lbrace, lbrace] ++ " source() ".data ++ [rbrace, rbrace] ++
  " for raw tables".data

/-- The message of a `MISSING_REF` finding (an f-string, so the quadrupled
braces render as doubled braces). -/
def missingRefMsg (name : PyStr) : PyStr :=
  "Direct reference to dbt model \"".data ++ name ++ "\" — use ".data ++
  [lbrace, lbrace] ++ " ref(".data ++ [squote] ++ name ++ [squote] ++
  ") ".data ++ [rbrace, rbrace] ++ " to track lineage".data

/-- The loop of `check_select_star` with its `seen` set. -/
def selectStarLoop (filename : PyStr) : List PyStr → List PyStr → List Finding
  | [], _ => []
  | line :: rest, seen =>
    let stripped := pyStrip line
    if stripped ∈ seen then selectStarLoop filename rest seen
    else if selectStarSearch stripped then
      { rule := "SELECT_STAR".data, severity := "error".data, file := filename,
        message := selectStarMsg, line := some stripped } ::
      selectStarLoop filename rest (stripped :: seen)
    else selectStarLoop filename rest seen

/-- `check_select_star` from `core/deterministic.py`. -/
def check_select_star (fd : FileDiff) : List Finding :=
  selectStarLoop fd.filename fd.added_lines []

/-- The loop of `check_hardcoded_schema` with its `seen` set. -/
def hardcodedLoop (filename : PyStr) : List PyStr → List PyStr → List Finding
  | [], _ => []
  | line :: rest, seen =>
    let stripped := pyStrip line
    if stripped ∈ seen then hardcodedLoop filename rest seen
    else if "--".data.isPrefixOf stripped then hardcodedLoop filename rest seen
    else
      match fromJoinSearch (jinjaSub jinjaToken line) with
      | some g =>
        { rule := "HARDCODED_SCHEMA".data, severity := "error".data, file := filename,
          message := hardcodedMsg (g.1 ++ '.' :: g.2), line := some stripped } ::
        hardcodedLoop filename rest (stripped :: seen)
      | none => hardcodedLoop filename rest seen

/-- `check_hardcoded_schema` from `core/deterministic.py`. -/
def check_hardcoded_schema (fd : FileDiff) : List Finding :=
  hardcodedLoop fd.filename fd.added_lines []

/-- The loop of `check_missing_ref` with its `seen` set: one finding per
`finditer` match of the bare-model pattern. -/
def missingRefLoop (filename : PyStr) : List PyStr → List PyStr → List Finding
  | [], _ => []
  | line :: rest, seen =>
    let stripped := pyStrip line
    if stripped ∈ seen then missingRefLoop filename rest seen
    else if "ref(".data <:+: line then missingRefLoop filename rest seen
    else
      let names := dbtFind (jinjaSub [] line)
      (names.map (fun name =>
        ({ rule := "MISSING_REF".data, severity := "warning".data, file := filename,
           message := missingRefMsg name, line := some stripped } : Finding))) ++
      missingRefLoop filename rest (if names.isEmpty then seen else stripped :: seen)

/-- `check_missing_ref` from `core/deterministic.py`. -/
def check_missing_ref (fd : FileDiff) : List Finding :=
  missingRefLoop fd.filename fd.added_lines []

/-- `run_all` from `core/deterministic.py`: every check against every file,
results concatenated. -/
def run_all (fds : List FileDiff) : List Finding :=
  fds.foldl
    (fun acc fd =>
      acc ++ check_select_star fd ++ check_hardcoded_schema fd ++ check_missing_ref fd)
    []

/-- `exit_code` from `core/reporter.py`. -/
def exit_code (findings : List Finding) : Nat :=
  if findings.any (fun f => f.severity = "error".data) then 1 else 0

/-! Instrumented reconstruction for the `new_content` line-count invariant:
alongside the unmodified `processLine` state we record, at each flush, the
number of context+added lines emitted into the section's content buffer
since the last `diff --git` marker, and whether the final emitted line was
empty (a trailing empty line is dropped by `splitlines` after the
newline-join). -/

/-- Whether the last buffered line is empty. -/
def lastEmptyOf (B : List PyStr) : Bool :=
  match B.getLast? with
  | some [] => true
  | _ => false

/-- The record flushed for a completed file: the `FileDiff` as produced by
`parse_diff`, the number of lines emitted into the section's content buffer,
and whether the last emitted line was empty. -/
def flushRecord (st : ParseState) (f : FileDiff) : FileDiff × Nat × Bool :=
  ({ f with new_content := joinNL st.new_content_lines },
   st.new_content_lines.length, lastEmptyOf st.new_content_lines)

/-- One loop step of the instrumented reconstruction: the state evolves by
`processLine`, and on a `diff --git` marker the flushed file is also
recorded together with its emitted-line count. -/
def stepE (p : ParseState × List (FileDiff × Nat × Bool)) (line : PyStr) :
    ParseState × List (FileDiff × Nat × Bool) :=
  (processLine p.1 line,
   if "diff --git ".data.isPrefixOf line then
     match p.1.current_file with
     | some f => p.2 ++ [flushRecord p.1 f]
     | none => p.2
   else p.2)

/-- Final flush of the instrumented reconstruction. -/
def flushE (p : ParseState × List (FileDiff × Nat × Bool)) :
    List (FileDiff × Nat × Bool) :=
  match p.1.current_file with
  | some f => p.2 ++ [flushRecord p.1 f]
  | none => p.2

/-- `parse_diff` instrumented with each file's emitted-line count. -/
def parse_diff_emitted (s : PyStr) : List (FileDiff × Nat × Bool) :=
  (flushE ((splitlines s).foldl stepE (initState, []))).filter
    (fun p => ".sql".data.isSuffixOf p.1.filename)

/-! Concrete inputs used by scenario theorems, counterexamples and
witnesses. -/

/-- A well-formed diff whose hunk has context lines after the added line. -/
def dC1 : PyStr :=
  "diff --git a/m.sql b/m.sql\n--- a/m.sql\n+++ b/m.sql\n@@ -1,2 +1,3 @@\n+new\n ctx1\n ctx2".data

/-- A diff with an added line before any hunk header and a hunk header whose
new-file start is 0. -/
def dC2 : PyStr :=
  "diff --git a/m.sql b/m.sql\n+++ b/m.sql\n+a\n@@ -1 +1 @@\n+b\n@@ -1 +0 @@\n+c".data

/-- Scenario A: a diff adding `SELECT * FROM orders` to `models/orders.sql`. -/
def dA : PyStr :=
  "diff --git a/models/orders.sql b/models/orders.sql\n--- a/models/orders.sql\n+++ b/models/orders.sql\n@@ -0,0 +1 @@\n+SELECT * FROM orders\n".data

/-- Scenario D: a diff adding `select * from stg_orders` to an SQL file. -/
def dC6 : PyStr :=
  "diff --git a/m.sql b/m.sql\n--- a/m.sql\n+++ b/m.sql\n@@ -0,0 +1 @@\n+select * from stg_orders\n".data

/-- Scenario B's added line. -/
def lineB : PyStr := "select id from analytics.raw_orders".data

/-- A FileChange holding scenario B's added line. -/
def fdB : FileDiff :=
  { filename := "m.sql".data, added_lines := [lineB], added_line_numbers := [1] }

/-- Scenario C's added line:
`select id from \x7b\x7b source('analytics','raw_orders') \x7d\x7d`. -/
def lineC : PyStr :=
  "select id from ".data ++ [lbrace, lbrace] ++ " source(".data ++ [squote] ++
  "analytics".data ++ [squote] ++ ",".data ++ [squote] ++ "raw_orders".data ++
  [squote] ++ ") ".data ++ [rbrace, rbrace]

/-- A FileChange holding scenario C's added line. -/
def fdC5c : FileDiff :=
  { filename := "m.sql".data, added_lines := [lineC], added_line_numbers := [1] }

/-- A FileChange with one added line matching the bare-model pattern twice. -/
def fdC3 : FileDiff :=
  { filename := "m.sql".data, added_lines := ["from stg_a join stg_b".data],
    added_line_numbers := [1] }

/-- A FileChange whose only added line is commented-out SQL that matches the
wildcard-select pattern. -/
def fdC10 : FileDiff :=
  { filename := "m.sql".data, added_lines := ["-- select * from a".data],
    added_line_numbers := [1] }

/-- A malformed hunk-header line. -/
def badHunkLine : PyStr := "@@ nope @@".data

/-- A minimal diff adding one line to `x.sql`, used by witnesses. -/
def dW : PyStr := "diff --git a/x.sql b/x.sql\n+++ b/x.sql\n+hi".data

/-- The single `FileDiff` produced by `parse_diff dW`. -/
def fdW : FileDiff :=
  { filename := "x.sql".data, added_lines := ["hi".data],
    added_line_numbers := [0], removed_lines := [], new_content := "hi".data }

/-- The length invariant of one `FileDiff`. -/
def LenOK (f : FileDiff) : Prop :=
  f.added_lines.length = f.added_line_numbers.length

/-- The length invariant of the whole parse state. -/
def StOK (st : ParseState) : Prop :=
  (∀ f ∈ st.files, LenOK f) ∧ ∀ f, st.current_file = some f → LenOK f

/-- The double-brace pattern matches at the very start of `l`. -/
def MatchAt0 (l : List Char) : Prop :=
  ∃ cs2 r, l = lbrace :: lbrace :: cs2 ∧ jinjaMatch cs2 = some r

/-- The double-brace pattern matches nowhere in `l`. -/
def CleanJ (l : List Char) : Prop :=
  ∀ i, ¬ MatchAt0 (l.drop i)

/-- A line free of the newline characters consumed by `splitlines`. -/
def NLfree (l : PyStr) : Prop :=
  ∀ c ∈ l, c ≠ Char.ofNat 10 ∧ c ≠ Char.ofNat 13

/-- Drop a single trailing empty line (what the newline-join loses). -/
def stripTrailEmpty (B : List PyStr) : List PyStr :=
  if B.getLast? = some [] then B.dropLast else B

/-- Invariant of the instrumented reconstruction: the recorded files are the
parser's flushed files in order, every record satisfies the line-count
property, and the content buffer holds newline-free lines. -/
def InvE (p : ParseState × List (FileDiff × Nat × Bool)) : Prop :=
  p.1.files = p.2.map (fun q => q.1) ∧
  (∀ q ∈ p.2,
    (splitlines q.1.new_content).length = q.2.1 - (if q.2.2 = true then 1 else 0)) ∧
  (∀ l ∈ p.1.new_content_lines, NLfree l)

/-- The single record produced by the instrumented parse of `dC1`. -/
def pC1 : FileDiff × Nat × Bool :=
  ({ filename := "m.sql".data, added_lines := ["new".data],
     added_line_numbers := [1], removed_lines := [],
     new_content := "new\nctx1\nctx2".data }, 3, false)

/-! ## Theorems -/

/-- Any `@@`-prefixed line that `_HUNK_RE` rejects leaves the whole parse
state unchanged. -/
theorem processLine_hunk_skip (st : ParseState) (t : List Char)
    (h2 : parseHunkHeader ('@' :: '@' :: t) = none) :
    processLine st ('@' :: '@' :: t) = st := by
  have e1 : ("diff --git ".data.isPrefixOf ('@' :: '@' :: t)) = false := by
    simp [List.isPrefixOf]
  have e2 : ("+++ b/".data.isPrefixOf ('@' :: '@' :: t)) = false := by
    simp [List.isPrefixOf]
  have e3 : ("--- ".data.isPrefixOf ('@' :: '@' :: t)) = false := by
    simp [List.isPrefixOf]
  have e4 : ("index ".data.isPrefixOf ('@' :: '@' :: t)) = false := by
    simp [List.isPrefixOf]
  have e5 : ("@@".data.isPrefixOf ('@' :: '@' :: t)) = true := by
    simp [List.isPrefixOf]
  unfold processLine
  simp only [e1, e2, e3, e4, e5, h2]
  simp

/-- C9: `parse_diff` is total and malformed hunk headers are harmless: a
`@@` line rejected by `_HUNK_RE` leaves the parser state (in particular the
new-line counter) unchanged, so inserting it anywhere between lines does not
change the parse result — the reconstructor continues from its last good
state and never fails. -/
theorem C9_malformed_hunk_harmless (st : ParseState) (l : PyStr)
    (xs ys : List PyStr)
    (h1 : "@@".data.isPrefixOf l) (h2 : parseHunkHeader l = none) :
    processLine st l = st ∧
    parse_lines (xs ++ l :: ys) = parse_lines (xs ++ ys) := by
  obtain ⟨t, ht⟩ := Iff.mp List.isPrefixOf_iff_prefix h1
  rw [show ("@@".data ++ t) = '@' :: '@' :: t from rfl] at ht
  subst ht
  refine ⟨processLine_hunk_skip st t h2, ?_⟩
  unfold parse_lines
  rw [List.foldl_append, List.foldl_append, List.foldl_cons,
    processLine_hunk_skip _ t h2]

/-- Witness for C9 at a concrete malformed hunk line. -/
theorem C9_witness :
    processLine initState badHunkLine = initState ∧
    parse_lines ([] ++ badHunkLine :: []) = parse_lines ([] ++ []) :=
  C9_malformed_hunk_harmless initState badHunkLine [] [] (by decide) (by decide)

/-- C7: the process exit status is non-zero exactly when some finding has
severity `error`, regardless of warnings and infos. -/
theorem C7_exit_code_iff (fs : List Finding) :
    exit_code fs ≠ 0 ↔ ∃ f ∈ fs, f.severity = "error".data := by
  unfold exit_code
  split
  next h =>
    simp only [List.any_eq_true, decide_eq_true_eq] at h
    simp [h]
  next h =>
    simp only [List.any_eq_true, decide_eq_true_eq] at h
    simp [h]

/-- C4: running the checks on scenario A's diff yields a finding whose
`line` field is set (the `Finding` record of `core/deterministic.py` has no
`line_number` field at all, yet `format_report` in `core/reporter.py` reads
`finding.line_number` whenever `finding.line` is set, so formatting this
finding raises `AttributeError`). -/
theorem C4_finding_line_is_set :
    (run_all (parse_diff dA)).map (fun f => (f.rule, f.line)) =
      [("SELECT_STAR".data, some "SELECT * FROM orders".data)] := by
  decide

/-- C5: `check_hardcoded_schema` flags scenario B's bare `schema.table`
reference with one `HARDCODED_SCHEMA` error embedding
`analytics.raw_orders` in the message, and reports nothing for scenario C,
whose reference is wrapped in a templating expression erased before
matching. -/
theorem C5_hardcoded_schema_scenarios :
    (check_hardcoded_schema fdB).map (fun f => (f.rule, f.severity, f.line)) =
      [("HARDCODED_SCHEMA".data, "error".data, some lineB)] ∧
    (check_hardcoded_schema fdB).all
      (fun f => decide ("analytics.raw_orders".data <:+: f.message)) = true ∧
    check_hardcoded_schema fdC5c = [] := by
  exact ⟨by decide, by decide, by decide⟩

/-- C6: scenario D's diff produces both a `SELECT_STAR` error finding and a
`MISSING_REF` warning finding whose message names `stg_orders`. -/
theorem C6_select_star_and_missing_ref :
    (run_all (parse_diff dC6)).map (fun f => (f.rule, f.severity)) =
      [("SELECT_STAR".data, "error".data), ("MISSING_REF".data, "warning".data)] ∧
    ((run_all (parse_diff dC6)).filter
        (fun f => decide (f.rule = "MISSING_REF".data))).all
      (fun f => decide ("stg_orders".data <:+: f.message)) = true := by
  exact ⟨by decide, by decide⟩

/-- C2 counterexample: on `dC2` (an added line before any hunk header and a
hunk header restarting at 0) the claimed invariant fails — an entry of
`added_line_numbers` is 0, the entries do not give 1-based positions in the
reconstructed file, and the sequence is not strictly increasing. -/
theorem C2_counterexample :
    ¬ (∀ f ∈ parse_diff dC2,
        f.added_lines.length = f.added_line_numbers.length ∧
        (∀ n ∈ f.added_line_numbers, 0 < n) ∧
        (∀ p ∈ f.added_lines.zip f.added_line_numbers,
          (splitlines f.new_content)[p.2 - 1]? = some p.1) ∧
        f.added_line_numbers.Pairwise (· < ·)) := by
  decide

/-- C3 counterexample: one added line that matches the bare-model pattern in
two ways yields two `MISSING_REF` findings with the same rule and the same
trimmed line text. -/
theorem C3_counterexample :
    ¬ (((check_missing_ref fdC3).map (fun f => (f.rule, f.line))).Nodup) := by
  decide

theorem flushFile_lenOK (st : ParseState) (h : StOK st) :
    ∀ f ∈ flushFile st, LenOK f := by
  intro f hf
  unfold flushFile at hf
  rcases hcur : st.current_file with _ | f0
  · rw [hcur] at hf
    exact h.1 f hf
  · rw [hcur] at hf
    rcases List.mem_append.1 hf with hmem | hmem
    · exact h.1 f hmem
    · have hfe : f = { f0 with new_content := joinNL st.new_content_lines } := by
        simpa using hmem
      subst hfe
      exact h.2 f0 hcur

theorem processLine_stOK (st : ParseState) (l : PyStr) (h : StOK st) :
    StOK (processLine st l) := by
  obtain ⟨h1, h2⟩ := h
  unfold processLine
  split
  · exact ⟨flushFile_lenOK st ⟨h1, h2⟩, fun f hf => by simp at hf⟩
  · split
    · dsimp only
      split
      · refine ⟨h1, fun f hf => ?_⟩
        simp at hf
        subst hf
        simp [LenOK]
      · exact ⟨h1, h2⟩
    · split
      · exact ⟨h1, h2⟩
      · split
        · split
          · exact ⟨h1, h2⟩
          · exact ⟨h1, h2⟩
        · split
          · exact ⟨h1, h2⟩
          · next f0 hcur =>
            split
            · split
              · refine ⟨h1, fun f hf => ?_⟩
                simp at hf
                subst hf
                have := h2 f0 hcur
                simp [LenOK] at this ⊢
                exact this
              · split
                · exact ⟨h1, fun f hf => by
                    simp at hf
                    subst hf
                    have := h2 f0 hcur
                    simpa [LenOK] using this⟩
                · split
                  · exact ⟨h1, h2⟩
                  · exact ⟨h1, h2⟩
            · exact ⟨h1, h2⟩

theorem foldl_stOK (lines : List PyStr) :
    ∀ st, StOK st → StOK (lines.foldl processLine st) := by
  induction lines with
  | nil => intro st h; exact h
  | cons l rest ih => intro st h; exact ih _ (processLine_stOK st l h)

/-- C2 (amended): for every input string and every FileChange produced by
`parse_diff`, `addedLines` and `addedLineNumbers` have the same length. -/
theorem C2_length_invariant (s : PyStr) (f : FileDiff)
    (hf : f ∈ parse_diff s) :
    f.added_lines.length = f.added_line_numbers.length := by
  have hst : StOK ((splitlines s).foldl processLine initState) :=
    foldl_stOK _ initState ⟨by simp [initState], by simp [initState]⟩
  unfold parse_diff parse_lines at hf
  exact flushFile_lenOK _ hst f (List.mem_of_mem_filter hf)

/-- Witness for C2 at the concrete diff `dW`. -/
theorem C2_witness :
    fdW.added_lines.length = fdW.added_line_numbers.length :=
  C2_length_invariant dW fdW (by decide)

theorem selectStarLoop_mem (fn : PyStr) :
    ∀ (lines seen : List PyStr) (t : PyStr),
      (∃ l ∈ lines, pyStrip l = t) → selectStarSearch t = true → t ∉ seen →
      ∃ f ∈ selectStarLoop fn lines seen,
        f.rule = "SELECT_STAR".data ∧ f.line = some t := by
  intro lines
  induction lines with
  | nil =>
    intro seen t hex _ _
    simp at hex
  | cons l0 rest ih =>
    intro seen t hex hmatch hseen
    rcases hex with ⟨l, hl, rfl⟩
    by_cases h1 : pyStrip l0 ∈ seen
    · simp only [selectStarLoop, if_pos h1]
      rcases List.mem_cons.1 hl with rfl | hl'
      · exact absurd h1 hseen
      · exact ih seen (pyStrip l) ⟨l, hl', rfl⟩ hmatch hseen
    · by_cases h2 : selectStarSearch (pyStrip l0) = true
      · simp only [selectStarLoop, if_neg h1, if_pos h2]
        by_cases heq : pyStrip l = pyStrip l0
        · exact ⟨_, List.mem_cons_self _ _, rfl, by rw [heq]⟩
        · rcases List.mem_cons.1 hl with rfl | hl'
          · exact absurd rfl heq
          · obtain ⟨f, hf, hr⟩ :=
              ih (pyStrip l0 :: seen) (pyStrip l) ⟨l, hl', rfl⟩ hmatch
                (by
                  intro hc
                  rcases List.mem_cons.1 hc with hc | hc
                  · exact heq hc
                  · exact hseen hc)
            exact ⟨f, List.mem_cons_of_mem _ hf, hr⟩
      · simp only [selectStarLoop, if_neg h1, if_neg h2]
        rcases List.mem_cons.1 hl with rfl | hl'
        · exact absurd hmatch h2
        · exact ih seen (pyStrip l) ⟨l, hl', rfl⟩ hmatch hseen

/-- C10: `check_select_star` applies neither comment-line exclusion nor
template-expression erasure — an added line whose trimmed text begins with
`--` and matches the wildcard-select pattern still yields a `SELECT_STAR`
finding for that trimmed text. -/
theorem C10_comment_lines_not_excluded (fd : FileDiff) (l : PyStr)
    (hmem : l ∈ fd.added_lines)
    (_hcomment : "--".data.isPrefixOf (pyStrip l))
    (hmatch : selectStarSearch (pyStrip l) = true) :
    ∃ f ∈ check_select_star fd,
      f.rule = "SELECT_STAR".data ∧ f.line = some (pyStrip l) :=
  selectStarLoop_mem fd.filename fd.added_lines [] (pyStrip l)
    ⟨l, hmem, rfl⟩ hmatch (List.not_mem_nil _)

/-- Witness for C10 at a concrete commented-out `select *` line. -/
theorem C10_witness :
    ∃ f ∈ check_select_star fdC10,
      f.rule = "SELECT_STAR".data ∧
      f.line = some (pyStrip "-- select * from a".data) :=
  C10_comment_lines_not_excluded fdC10 "-- select * from a".data
    (by decide) (by decide) (by decide)

theorem selectStarLoop_nodup (fn : PyStr) :
    ∀ (lines seen : List PyStr),
      (((selectStarLoop fn lines seen).map (fun f => (f.rule, f.line))).Nodup) ∧
      (∀ f ∈ selectStarLoop fn lines seen, ∀ t, f.line = some t → t ∉ seen) := by
  intro lines
  induction lines with
  | nil => intro seen; simp [selectStarLoop]
  | cons l0 rest ih =>
    intro seen
    by_cases h1 : pyStrip l0 ∈ seen
    · simpa only [selectStarLoop, if_pos h1] using ih seen
    · by_cases h2 : selectStarSearch (pyStrip l0) = true
      · obtain ⟨hnd, hmem⟩ := ih (pyStrip l0 :: seen)
        constructor
        · simp only [selectStarLoop, if_neg h1, if_pos h2, List.map_cons]
          refine List.nodup_cons.2 ⟨?_, hnd⟩
          intro hcontra
          rcases List.mem_map.1 hcontra with ⟨f, hf, hfe⟩
          have hline : f.line = some (pyStrip l0) := congrArg Prod.snd hfe
          exact hmem f hf (pyStrip l0) hline (List.mem_cons_self _ _)
        · intro f hf t ht
          simp only [selectStarLoop, if_neg h1, if_pos h2] at hf
          rcases List.mem_cons.1 hf with rfl | hf'
          · intro hc
            simp at ht
            subst ht
            exact h1 hc
          · intro hc
            exact hmem f hf' t ht (List.mem_cons_of_mem _ hc)
      · simpa only [selectStarLoop, if_neg h1, if_neg h2] using ih seen

theorem hardcodedLoop_nodup (fn : PyStr) :
    ∀ (lines seen : List PyStr),
      (((hardcodedLoop fn lines seen).map (fun f => (f.rule, f.line))).Nodup) ∧
      (∀ f ∈ hardcodedLoop fn lines seen, ∀ t, f.line = some t → t ∉ seen) := by
  intro lines
  induction lines with
  | nil => intro seen; simp [hardcodedLoop]
  | cons l0 rest ih =>
    intro seen
    by_cases h1 : pyStrip l0 ∈ seen
    · simpa only [hardcodedLoop, if_pos h1] using ih seen
    · by_cases h2 : ("--".data.isPrefixOf (pyStrip l0)) = true
      · simpa only [hardcodedLoop, if_neg h1, if_pos h2] using ih seen
      · rcases hm : fromJoinSearch (jinjaSub jinjaToken l0) with _ | g
        · simpa only [hardcodedLoop, if_neg h1, if_neg h2, hm] using ih seen
        · obtain ⟨hnd, hmem⟩ := ih (pyStrip l0 :: seen)
          constructor
          · simp only [hardcodedLoop, if_neg h1, if_neg h2, hm, List.map_cons]
            refine List.nodup_cons.2 ⟨?_, hnd⟩
            intro hcontra
            rcases List.mem_map.1 hcontra with ⟨f, hf, hfe⟩
            have hline : f.line = some (pyStrip l0) := congrArg Prod.snd hfe
            exact hmem f hf (pyStrip l0) hline (List.mem_cons_self _ _)
          · intro f hf t ht
            simp only [hardcodedLoop, if_neg h1, if_neg h2, hm] at hf
            rcases List.mem_cons.1 hf with rfl | hf'
            · intro hc
              simp at ht
              subst ht
              exact h1 hc
            · intro hc
              exact hmem f hf' t ht (List.mem_cons_of_mem _ hc)

/-- C3 (amended): in `check_select_star` and `check_hardcoded_schema` a
given trimmed added-line text produces at most one finding per rule per
file (the first occurrence is the one kept); `check_missing_ref` instead
emits one finding per pattern match, so one line matching in several ways
yields several findings for the same trimmed text. -/
theorem C3_dedup_select_star_hardcoded (fd : FileDiff) :
    (((check_select_star fd).map (fun f => (f.rule, f.line))).Nodup) ∧
    (((check_hardcoded_schema fd).map (fun f => (f.rule, f.line))).Nodup) :=
  ⟨(selectStarLoop_nodup fd.filename fd.added_lines []).1,
   (hardcodedLoop_nodup fd.filename fd.added_lines []).1⟩

/-! ### Idempotence of `_JINJA_RE.sub("__JINJA__", ·)` -/

theorem jinjaClose_length : ∀ {cs r : List Char},
    jinjaClose cs = some r → r.length < cs.length := by
  intro cs
  induction cs with
  | nil => intro r h; simp [jinjaClose] at h
  | cons x xs ih =>
    intro r h
    by_cases hx : x = rbrace
    · rcases xs with _ | ⟨y, ys⟩
      · simp [jinjaClose, hx] at h
      · by_cases hy : y = rbrace
        · simp [jinjaClose, hx, hy] at h
          subst h
          simp
          omega
        · simp [jinjaClose, hx, hy] at h
    · simp [jinjaClose, hx] at h
      have := ih h
      simp
      omega

theorem jinjaMatch_length {cs r : List Char} (h : jinjaMatch cs = some r) :
    r.length < cs.length := by
  rcases cs with _ | ⟨c, cs⟩
  · simp [jinjaMatch] at h
  · by_cases hc : c = rbrace
    · simp [jinjaMatch, hc] at h
    · simp [jinjaMatch, hc] at h
      have := jinjaClose_length h
      simp
      omega

theorem jinjaSubF_irrel (repl : List Char) :
    ∀ (n : Nat) (s : List Char) (f1 f2 : Nat),
      s.length ≤ n → s.length ≤ f1 → s.length ≤ f2 →
      jinjaSubF repl f1 s = jinjaSubF repl f2 s := by
  intro n
  induction n with
  | zero =>
    intro s f1 f2 hn _ _
    have hs : s = [] := List.eq_nil_of_length_eq_zero (Nat.le_zero.1 hn)
    subst hs
    cases f1 <;> cases f2 <;> simp [jinjaSubF]
  | succ n ih =>
    intro s f1 f2 hn h1 h2
    rcases s with _ | ⟨c, _ | ⟨c2, cs2⟩⟩
    · cases f1 <;> cases f2 <;> simp [jinjaSubF]
    · simp at h1 h2
      obtain ⟨g1, rfl⟩ : ∃ g, f1 = g + 1 := ⟨f1 - 1, by omega⟩
      obtain ⟨g2, rfl⟩ : ∃ g, f2 = g + 1 := ⟨f2 - 1, by omega⟩
      simp [jinjaSubF]
    · simp at hn h1 h2
      obtain ⟨g1, rfl⟩ : ∃ g, f1 = g + 1 := ⟨f1 - 1, by omega⟩
      obtain ⟨g2, rfl⟩ : ∃ g, f2 = g + 1 := ⟨f2 - 1, by omega⟩
      simp only [jinjaSubF]
      by_cases hb : c = lbrace ∧ c2 = lbrace
      · simp only [if_pos hb]
        rcases hm : jinjaMatch cs2 with _ | r
        · have : jinjaSubF repl g1 (c2 :: cs2) = jinjaSubF repl g2 (c2 :: cs2) :=
            ih (c2 :: cs2) g1 g2 (by simp; omega) (by simp; omega) (by simp; omega)
          simp [this]
        · have hr := jinjaMatch_length hm
          have : jinjaSubF repl g1 r = jinjaSubF repl g2 r :=
            ih r g1 g2 (by omega) (by omega) (by omega)
          simp [this]
      · simp only [if_neg hb]
        have : jinjaSubF repl g1 (c2 :: cs2) = jinjaSubF repl g2 (c2 :: cs2) :=
          ih (c2 :: cs2) g1 g2 (by simp; omega) (by simp; omega) (by simp; omega)
        simp [this]

theorem jinjaSub_nil (repl : List Char) : jinjaSub repl [] = [] := rfl

theorem jinjaSub_single (repl : List Char) (c : Char) :
    jinjaSub repl [c] = [c] := by
  simp [jinjaSub, jinjaSubF]

theorem jinjaSub_match (repl : List Char) {cs2 r : List Char}
    (h : jinjaMatch cs2 = some r) :
    jinjaSub repl (lbrace :: lbrace :: cs2) = repl ++ jinjaSub repl r := by
  have hr := jinjaMatch_length h
  unfold jinjaSub
  simp only [List.length_cons, jinjaSubF, if_pos (And.intro rfl rfl), h]
  simp only [and_self, if_true]
  congr 1
  exact jinjaSubF_irrel repl r.length r (cs2.length + 1) r.length le_rfl
    (by omega) le_rfl

theorem jinjaSub_nomatch (repl : List Char) {cs2 : List Char}
    (h : jinjaMatch cs2 = none) :
    jinjaSub repl (lbrace :: lbrace :: cs2) =
      lbrace :: jinjaSub repl (lbrace :: cs2) := by
  unfold jinjaSub
  simp only [List.length_cons, jinjaSubF, if_pos (And.intro rfl rfl), h]
  simp

theorem jinjaSub_copy (repl : List Char) {c c2 : Char} {cs2 : List Char}
    (h : ¬ (c = lbrace ∧ c2 = lbrace)) :
    jinjaSub repl (c :: c2 :: cs2) = c :: jinjaSub repl (c2 :: cs2) := by
  unfold jinjaSub
  simp only [List.length_cons, jinjaSubF, if_neg h]

theorem jinjaSub_cons_nomatch (repl : List Char) {c : Char} {cs : List Char}
    (h : ¬ MatchAt0 (c :: cs)) :
    jinjaSub repl (c :: cs) = c :: jinjaSub repl cs := by
  rcases cs with _ | ⟨c2, cs2⟩
  · simp [jinjaSub_single, jinjaSub_nil]
  · by_cases hb : c = lbrace ∧ c2 = lbrace
    · obtain ⟨rfl, rfl⟩ := hb
      have hm : jinjaMatch cs2 = none := by
        rcases hmm : jinjaMatch cs2 with _ | r
        · rfl
        · exact absurd ⟨cs2, r, rfl, hmm⟩ h
      exact jinjaSub_nomatch repl hm
    · exact jinjaSub_copy repl hb

theorem jinjaClose_cons_ne {c : Char} (cs : List Char) (hc : c ≠ rbrace) :
    jinjaClose (c :: cs) = jinjaClose cs := by
  simp [jinjaClose, hc]

theorem jinjaClose_of_match {cs r : List Char} (h : jinjaMatch cs = some r) :
    jinjaClose cs = some r := by
  rcases cs with _ | ⟨c, cs'⟩
  · simp [jinjaMatch] at h
  · by_cases hc : c = rbrace
    · simp [jinjaMatch, hc] at h
    · simp [jinjaMatch, hc] at h
      rw [jinjaClose_cons_ne cs' hc]
      exact h

theorem jinjaSub_head_not_lb (repl : List Char) {d : Char} (ds : List Char)
    (hd : d ≠ lbrace) :
    jinjaSub repl (d :: ds) = d :: jinjaSub repl ds :=
  jinjaSub_cons_nomatch repl (by
    rintro ⟨cs2, r, heq, -⟩
    injection heq with h1 _
    exact hd h1)

theorem jinjaSub_head_ne (d : Char) (ds : List Char) (hd : d ≠ rbrace) :
    ∃ e t, jinjaSub jinjaToken (d :: ds) = e :: t ∧ e ≠ rbrace := by
  by_cases hM : MatchAt0 (d :: ds)
  · obtain ⟨cs2, r, heq, hm⟩ := hM
    injection heq with h1 h2
    subst h1
    subst h2
    rw [jinjaSub_match _ hm]
    exact ⟨'_', "_JINJA__".data ++ jinjaSub jinjaToken r, rfl, by decide⟩
  · rw [jinjaSub_cons_nomatch _ hM]
    exact ⟨d, _, rfl, hd⟩

theorem jinjaClose_sub_none :
    ∀ (n : Nat) (l : List Char), l.length ≤ n → jinjaClose l = none →
      jinjaClose (jinjaSub jinjaToken l) = none := by
  intro n
  induction n with
  | zero =>
    intro l hn _
    have hl : l = [] := List.eq_nil_of_length_eq_zero (Nat.le_zero.1 hn)
    subst hl
    simp [jinjaSub_nil, jinjaClose]
  | succ n ih =>
    intro l hn hq
    rcases l with _ | ⟨c, cs⟩
    · simp [jinjaSub_nil, jinjaClose]
    · by_cases hc : c = rbrace
      · subst hc
        rw [jinjaSub_head_not_lb _ cs (by decide)]
        rcases cs with _ | ⟨c2, r⟩
        · simp [jinjaSub_nil, jinjaClose]
        · have hc2 : c2 ≠ rbrace := by
            intro hcc
            subst hcc
            simp [jinjaClose] at hq
          obtain ⟨e, t, het, hene⟩ := jinjaSub_head_ne c2 r hc2
          rw [het]
          simp [jinjaClose, hene]
      · have hq' : jinjaClose cs = none := by
          rwa [jinjaClose_cons_ne cs hc] at hq
        by_cases hM : MatchAt0 (c :: cs)
        · obtain ⟨cs2, r, heq, hm⟩ := hM
          injection heq with h1 h2
          subst h1
          subst h2
          have h3 := jinjaClose_of_match hm
          rw [jinjaClose_cons_ne cs2 (by decide)] at hq'
          simp [h3] at hq'
        · rw [jinjaSub_cons_nomatch _ hM, jinjaClose_cons_ne _ hc]
          exact ih cs (by simp at hn; omega) hq'

theorem jinjaMatch_sub_none {cs : List Char} (h : jinjaMatch cs = none) :
    jinjaMatch (jinjaSub jinjaToken cs) = none := by
  rcases cs with _ | ⟨c, cs'⟩
  · simp [jinjaSub_nil, jinjaMatch]
  · by_cases hc : c = rbrace
    · subst hc
      rw [jinjaSub_head_not_lb _ cs' (by decide)]
      simp [jinjaMatch]
    · have hq : jinjaClose cs' = none := by
        simpa [jinjaMatch, hc] using h
      by_cases hM : MatchAt0 (c :: cs')
      · obtain ⟨cs2, r, heq, hm⟩ := hM
        injection heq with h1 h2
        subst h1
        subst h2
        have h3 := jinjaClose_of_match hm
        rw [jinjaClose_cons_ne cs2 (by decide)] at hq
        simp [h3] at hq
      · rw [jinjaSub_cons_nomatch _ hM]
        simp only [jinjaMatch, if_neg hc]
        exact jinjaClose_sub_none cs'.length cs' le_rfl hq

theorem not_matchAt0_nil : ¬ MatchAt0 [] := by
  rintro ⟨cs2, r, h, -⟩
  simp at h

theorem not_matchAt0_single (c : Char) : ¬ MatchAt0 [c] := by
  rintro ⟨cs2, r, h, -⟩
  simp at h

theorem not_matchAt0_head {c : Char} {l : List Char} (h : c ≠ lbrace) :
    ¬ MatchAt0 (c :: l) := by
  rintro ⟨cs2, r, heq, -⟩
  injection heq with h1 _
  exact h h1

theorem not_matchAt0_second {c c2 : Char} {l : List Char} (h : c2 ≠ lbrace) :
    ¬ MatchAt0 (c :: c2 :: l) := by
  rintro ⟨cs2, r, heq, -⟩
  injection heq with _ h2
  injection h2 with h2 _
  exact h h2

theorem not_matchAt0_braces {cs2 : List Char} (h : jinjaMatch cs2 = none) :
    ¬ MatchAt0 (lbrace :: lbrace :: cs2) := by
  rintro ⟨ds, r, heq, hm⟩
  injection heq with _ h2
  injection h2 with _ h3
  subst h3
  simp [h] at hm

theorem cleanJ_nil : CleanJ [] := by
  intro i
  rw [List.drop_nil]
  exact not_matchAt0_nil

theorem cleanJ_cons {c : Char} {l : List Char}
    (h0 : ¬ MatchAt0 (c :: l)) (h : CleanJ l) : CleanJ (c :: l) := by
  intro i
  cases i with
  | zero => simpa using h0
  | succ j => simpa using h j

theorem cleanJ_tail {c : Char} {l : List Char} (h : CleanJ (c :: l)) :
    CleanJ l := by
  intro i
  simpa using h (i + 1)

theorem cleanJ_append_noLb {a t : List Char}
    (ha : ∀ x ∈ a, x ≠ lbrace) (ht : CleanJ t) : CleanJ (a ++ t) := by
  induction a with
  | nil => simpa using ht
  | cons x a' ih =>
    exact cleanJ_cons (not_matchAt0_head (ha x (List.mem_cons_self _ _)))
      (ih (fun y hy => ha y (List.mem_cons_of_mem _ hy)))

theorem cleanJ_sub_aux :
    ∀ (n : Nat) (s : List Char), s.length ≤ n →
      CleanJ (jinjaSub jinjaToken s) := by
  intro n
  induction n with
  | zero =>
    intro s hn
    have hs : s = [] := List.eq_nil_of_length_eq_zero (Nat.le_zero.1 hn)
    subst hs
    rw [jinjaSub_nil]
    exact cleanJ_nil
  | succ n ih =>
    intro s hn
    rcases s with _ | ⟨c, _ | ⟨c2, cs2⟩⟩
    · rw [jinjaSub_nil]
      exact cleanJ_nil
    · rw [jinjaSub_single]
      exact cleanJ_cons (not_matchAt0_single c) cleanJ_nil
    · simp only [List.length_cons] at hn
      by_cases hb : c = lbrace ∧ c2 = lbrace
      · obtain ⟨rfl, rfl⟩ := hb
        rcases hm : jinjaMatch cs2 with _ | r
        · rw [jinjaSub_nomatch _ hm]
          refine cleanJ_cons ?_ (ih (lbrace :: cs2) (by simp; omega))
          by_cases hM : MatchAt0 (lbrace :: cs2)
          · obtain ⟨ds, r, heq, hm2⟩ := hM
            injection heq with _ h2
            subst h2
            rw [jinjaSub_match _ hm2]
            exact not_matchAt0_second (by decide)
          · rw [jinjaSub_cons_nomatch _ hM]
            exact not_matchAt0_braces (jinjaMatch_sub_none hm)
        · rw [jinjaSub_match _ hm]
          have hr := jinjaMatch_length hm
          exact cleanJ_append_noLb (by decide) (ih r (by omega))
      · rw [jinjaSub_copy _ hb]
        refine cleanJ_cons ?_ (ih (c2 :: cs2) (by simp; omega))
        by_cases hc : c = lbrace
        · have hc2 : c2 ≠ lbrace := fun hcc => hb ⟨hc, hcc⟩
          rw [jinjaSub_head_not_lb _ cs2 hc2]
          exact not_matchAt0_second hc2
        · exact not_matchAt0_head hc

theorem jinjaSub_fix_aux :
    ∀ (n : Nat) (l : List Char), l.length ≤ n → CleanJ l →
      jinjaSub jinjaToken l = l := by
  intro n
  induction n with
  | zero =>
    intro l hn _
    have hl : l = [] := List.eq_nil_of_length_eq_zero (Nat.le_zero.1 hn)
    subst hl
    exact jinjaSub_nil _
  | succ n ih =>
    intro l hn hc
    rcases l with _ | ⟨c, cs⟩
    · exact jinjaSub_nil _
    · have h0 : ¬ MatchAt0 (c :: cs) := by simpa using hc 0
      rw [jinjaSub_cons_nomatch _ h0,
        ih cs (by simp at hn; omega) (cleanJ_tail hc)]

/-- C8: the template-expression erasure used by `check_hardcoded_schema`
(`_JINJA_RE.sub("__JINJA__", ·)`) is idempotent: erasing already-erased text
changes nothing. -/
theorem C8_erasure_idempotent (s : PyStr) :
    jinjaSub jinjaToken (jinjaSub jinjaToken s) = jinjaSub jinjaToken s :=
  jinjaSub_fix_aux (jinjaSub jinjaToken s).length _ le_rfl
    (cleanJ_sub_aux s.length s le_rfl)

/-! ### The `new_content` line-count invariant (C1) -/

theorem splitlines_nl_cons (t : List Char) :
    splitlines (Char.ofNat 10 :: t) = [] :: splitlines t := by
  rcases t with _ | ⟨c, cs⟩
  · simp [splitlines]
  · simp [splitlines]

theorem splitlines_single :
    ∀ (b : PyStr), NLfree b → b ≠ [] → splitlines b = [b] := by
  intro b
  induction b with
  | nil => intro _ h; exact absurd rfl h
  | cons c cb ih =>
    intro hnl _
    have hc := hnl c (List.mem_cons_self _ _)
    rcases cb with _ | ⟨c2, cs⟩
    · simp [splitlines, hc.1, hc.2]
    · have ih2 := ih (fun x hx => hnl x (List.mem_cons_of_mem _ hx)) (by simp)
      simp [splitlines, hc.1, hc.2, ih2]

theorem splitlines_append_nl :
    ∀ (b t : List Char), NLfree b →
      splitlines (b ++ Char.ofNat 10 :: t) = b :: splitlines t := by
  intro b
  induction b with
  | nil => intro t _; simpa using splitlines_nl_cons t
  | cons c b' ih =>
    intro t hnl
    have hc := hnl c (List.mem_cons_self _ _)
    have ih2 := ih t (fun x hx => hnl x (List.mem_cons_of_mem _ hx))
    rcases b' with _ | ⟨c2, cb'⟩
    · simp only [List.nil_append] at ih2
      simp [splitlines, hc.1, hc.2, splitlines_nl_cons t]
    · simp only [List.cons_append]
      simp only [List.cons_append] at ih2
      simp [splitlines, hc.1, hc.2, ih2]

theorem splitlines_joinNL :
    ∀ (B : List PyStr), (∀ l ∈ B, NLfree l) →
      splitlines (joinNL B) = stripTrailEmpty B := by
  intro B
  induction B with
  | nil => intro _; simp [joinNL, splitlines, stripTrailEmpty]
  | cons b B' ih =>
    intro h
    rcases B' with _ | ⟨b2, B''⟩
    · rcases hb : b with _ | ⟨c, cb⟩
      · simp [joinNL, splitlines, stripTrailEmpty]
      · rw [show joinNL [c :: cb] = c :: cb from rfl,
          splitlines_single (c :: cb) (hb ▸ h b (List.mem_cons_self _ _)) (by simp)]
        simp [stripTrailEmpty]
    · rw [show joinNL (b :: b2 :: B'') = b ++ Char.ofNat 10 :: joinNL (b2 :: B'') from rfl,
        splitlines_append_nl b _ (h b (List.mem_cons_self _ _)),
        ih (fun l hl => h l (List.mem_cons_of_mem _ hl))]
      unfold stripTrailEmpty
      rw [List.getLast?_cons_cons]
      split
      · rw [List.dropLast_cons₂]
      · rfl

theorem splitlines_NLfree :
    ∀ (n : Nat) (s : List Char), s.length ≤ n → ∀ l ∈ splitlines s, NLfree l := by
  intro n
  induction n with
  | zero =>
    intro s hn l hl
    have hs : s = [] := List.eq_nil_of_length_eq_zero (Nat.le_zero.1 hn)
    subst hs
    simp [splitlines] at hl
  | succ n ih =>
    intro s hn l hl
    rcases s with _ | ⟨c, _ | ⟨c2, cs2⟩⟩
    · simp [splitlines] at hl
    · by_cases h10 : c = Char.ofNat 10
      · simp [splitlines, h10] at hl
        subst hl
        intro x hx
        simp at hx
      · by_cases h13 : c = Char.ofNat 13
        · simp [splitlines, h10, h13] at hl
          subst hl
          intro x hx
          simp at hx
        · simp [splitlines, h10, h13] at hl
          subst hl
          intro x hx
          simp at hx
          subst hx
          exact ⟨h10, h13⟩
    · simp only [List.length_cons] at hn
      by_cases h10 : c = Char.ofNat 10
      · simp only [splitlines, if_pos h10] at hl
        rcases List.mem_cons.1 hl with rfl | hl'
        · intro x hx; simp at hx
        · exact ih (c2 :: cs2) (by simp; omega) l hl'
      · by_cases h13 : c = Char.ofNat 13
        · simp only [splitlines, if_neg h10, if_pos h13] at hl
          by_cases h210 : c2 = Char.ofNat 10
          · rw [if_pos h210] at hl
            rcases List.mem_cons.1 hl with rfl | hl'
            · intro x hx; simp at hx
            · exact ih cs2 (by omega) l hl'
          · rw [if_neg h210] at hl
            rcases List.mem_cons.1 hl with rfl | hl'
            · intro x hx; simp at hx
            · exact ih (c2 :: cs2) (by simp; omega) l hl'
        · simp only [splitlines, if_neg h10, if_neg h13] at hl
          rcases hs : splitlines (c2 :: cs2) with _ | ⟨l0, ls⟩
          · rw [hs] at hl
            simp at hl
            subst hl
            intro x hx
            simp at hx
            subst hx
            exact ⟨h10, h13⟩
          · rw [hs] at hl
            rcases List.mem_cons.1 hl with rfl | hl'
            · intro x hx
              rcases List.mem_cons.1 hx with rfl | hx'
              · exact ⟨h10, h13⟩
              · exact ih (c2 :: cs2) (by simp; omega) l0 (hs ▸ List.mem_cons_self _ _) x hx'
            · exact ih (c2 :: cs2) (by simp; omega) l (hs ▸ List.mem_cons_of_mem _ hl')

theorem processLine_git (st : ParseState) (line : PyStr)
    (hgit : "diff --git ".data.isPrefixOf line = true) :
    processLine st line = ⟨flushFile st, none, [], 0⟩ := by
  unfold processLine
  rw [if_pos hgit]

theorem processLine_nongit (st : ParseState) (line : PyStr)
    (hgit : ¬ ("diff --git ".data.isPrefixOf line = true))
    (hnl : NLfree line) :
    (processLine st line).files = st.files ∧
    ∀ l ∈ (processLine st line).new_content_lines,
      l ∈ st.new_content_lines ∨ NLfree l := by
  unfold processLine
  rw [if_neg hgit]
  split
  · dsimp only
    split
    · exact ⟨rfl, fun l hl => Or.inl hl⟩
    · exact ⟨rfl, fun l hl => Or.inl hl⟩
  · split
    · exact ⟨rfl, fun l hl => Or.inl hl⟩
    · split
      · split
        · exact ⟨rfl, fun l hl => Or.inl hl⟩
        · exact ⟨rfl, fun l hl => Or.inl hl⟩
      · split
        · exact ⟨rfl, fun l hl => Or.inl hl⟩
        · split
          · split
            · refine ⟨rfl, fun l hl => ?_⟩
              rcases List.mem_append.1 hl with h | h
              · exact Or.inl h
              · simp at h
                subst h
                next c rest _ _ =>
                  exact Or.inr (fun x hx => hnl x (List.mem_cons_of_mem _ hx))
            · split
              · exact ⟨rfl, fun l hl => Or.inl hl⟩
              · split
                · exact ⟨rfl, fun l hl => Or.inl hl⟩
                · refine ⟨rfl, fun l hl => ?_⟩
                  rcases List.mem_append.1 hl with h | h
                  · exact Or.inl h
                  · simp at h
                    subst h
                    split
                    · next c rest _ _ _ _ _ =>
                        exact Or.inr (fun x hx => hnl x (List.mem_cons_of_mem _ hx))
                    · exact Or.inr hnl
          · refine ⟨rfl, fun l hl => ?_⟩
            rcases List.mem_append.1 hl with h | h
            · exact Or.inl h
            · simp at h
              subst h
              exact Or.inr (fun x hx => by simp at hx)

theorem flushRecord_prop (st : ParseState) (f : FileDiff)
    (hb : ∀ l ∈ st.new_content_lines, NLfree l) :
    (splitlines (flushRecord st f).1.new_content).length =
      (flushRecord st f).2.1 -
        (if (flushRecord st f).2.2 = true then 1 else 0) := by
  unfold flushRecord
  dsimp only
  rw [splitlines_joinNL st.new_content_lines hb]
  unfold stripTrailEmpty lastEmptyOf
  rcases hL : st.new_content_lines.getLast? with _ | b
  · simp [hL]
  · rcases b with _ | ⟨c, cb⟩
    · simp [hL, List.length_dropLast]
    · simp [hL]

theorem stepE_inv (p : ParseState × List (FileDiff × Nat × Bool))
    (line : PyStr) (hInv : InvE p) (hnl : NLfree line) :
    InvE (stepE p line) := by
  obtain ⟨h1, h2, h3⟩ := hInv
  by_cases hgit : ("diff --git ".data.isPrefixOf line) = true
  · unfold stepE
    rw [if_pos hgit]
    refine ⟨?_, ?_, ?_⟩
    · rw [processLine_git p.1 line hgit]
      rcases hcur : p.1.current_file with _ | f
      · simp only [flushFile, hcur]
        exact h1
      · simp only [flushFile, hcur, List.map_append]
        rw [h1]
        rfl
    · intro q hq
      rcases hcur : p.1.current_file with _ | f
      · rw [hcur] at hq
        exact h2 q hq
      · rw [hcur] at hq
        rcases List.mem_append.1 hq with h | h
        · exact h2 q h
        · simp at h
          subst h
          exact flushRecord_prop p.1 f h3
    · rw [processLine_git p.1 line hgit]
      intro l hl
      simp at hl
  · unfold stepE
    rw [if_neg hgit]
    obtain ⟨hf, hbuf⟩ := processLine_nongit p.1 line hgit hnl
    refine ⟨by rw [hf]; exact h1, h2, ?_⟩
    intro l hl
    rcases hbuf l hl with h | h
    · exact h3 l h
    · exact h

theorem foldl_stepE_inv :
    ∀ (lines : List PyStr) (p), InvE p → (∀ l ∈ lines, NLfree l) →
      InvE (lines.foldl stepE p) := by
  intro lines
  induction lines with
  | nil => intro p h _; exact h
  | cons l rest ih =>
    intro p h hnl
    exact ih (stepE p l) (stepE_inv p l h (hnl l (List.mem_cons_self _ _)))
      (fun x hx => hnl x (List.mem_cons_of_mem _ hx))

theorem foldl_stepE_fst :
    ∀ (lines : List PyStr) (p : ParseState × List (FileDiff × Nat × Bool)),
      (lines.foldl stepE p).1 = lines.foldl processLine p.1 := by
  intro lines
  induction lines with
  | nil => intro p; rfl
  | cons l rest ih => intro p; exact ih (stepE p l)

theorem flushE_map_fst (p : ParseState × List (FileDiff × Nat × Bool))
    (h : p.1.files = p.2.map (fun q => q.1)) :
    (flushE p).map (fun q => q.1) = flushFile p.1 := by
  unfold flushE flushFile
  rcases hcur : p.1.current_file with _ | f
  · exact h.symm
  · simp only [List.map_append]
    rw [← h]
    rfl

theorem flushE_prop (p : ParseState × List (FileDiff × Nat × Bool))
    (hInv : InvE p) :
    ∀ q ∈ flushE p,
      (splitlines q.1.new_content).length =
        q.2.1 - (if q.2.2 = true then 1 else 0) := by
  intro q hq
  unfold flushE at hq
  rcases hcur : p.1.current_file with _ | f
  · rw [hcur] at hq
    exact hInv.2.1 q hq
  · rw [hcur] at hq
    rcases List.mem_append.1 hq with h | h
    · exact hInv.2.1 q h
    · simp at h
      subst h
      exact flushRecord_prop p.1 f hInv.2.2

theorem map_fst_filter_suffix (l : List (FileDiff × Nat × Bool)) :
    ((l.filter (fun p => ".sql".data.isSuffixOf p.1.filename)).map
      (fun p => p.1)) =
    (l.map (fun p => p.1)).filter (fun f => ".sql".data.isSuffixOf f.filename) := by
  induction l with
  | nil => rfl
  | cons x xs ih =>
    by_cases h : (".sql".data.isSuffixOf x.1.filename) = true
    · simp [List.filter_cons, h, ih]
    · simp [List.filter_cons, h, ih]

/-- C1 counterexample: on the well-formed diff `dC1` (one added line
followed by two context lines) the reconstructed content has 3 lines while
the highest entry of `added_line_numbers` is 1. -/
theorem C1_counterexample :
    ¬ (∀ f ∈ parse_diff dC1, f.added_lines ≠ [] →
        (splitlines f.new_content).length =
          f.added_line_numbers.foldr max 0) := by
  decide

/-- C1 (amended): the instrumented reconstruction records, per flushed file,
the number of context+added lines emitted into the section content buffer
since the last `diff --git` marker and whether the last emitted line was
empty; it tracks `parse_diff` exactly, and every FileChange's `newContent`
line count equals that emitted count, less one when the final emitted line
is empty (the trailing empty line that the newline join drops).  The count
need not equal the highest `addedLineNumbers` entry. -/
theorem C1_amended_content_lines (s : PyStr) :
    (parse_diff_emitted s).map (fun p => p.1) = parse_diff s ∧
    ∀ p ∈ parse_diff_emitted s,
      (splitlines p.1.new_content).length =
        p.2.1 - (if p.2.2 = true then 1 else 0) := by
  have hNL : ∀ l ∈ splitlines s, NLfree l :=
    splitlines_NLfree s.length s le_rfl
  have hInv : InvE ((splitlines s).foldl stepE (initState, [])) :=
    foldl_stepE_inv (splitlines s) (initState, [])
      ⟨rfl, by simp, by simp [initState]⟩ hNL
  constructor
  · unfold parse_diff_emitted parse_diff parse_lines
    rw [map_fst_filter_suffix, flushE_map_fst _ hInv.1, foldl_stepE_fst]
  · intro p hp
    unfold parse_diff_emitted at hp
    exact flushE_prop _ hInv p (List.mem_of_mem_filter hp)

/-- Witness for C1 at the record flushed for `dC1`. -/
theorem C1_witness :
    (splitlines pC1.1.new_content).length =
      pC1.2.1 - (if pC1.2.2 = true then 1 else 0) :=
  (C1_amended_content_lines dC1).2 pC1 (by decide)

end DbtReviewer
